import Mathlib

set_option maxHeartbeats 1000000

/- Verification development for the cadmium logic-programming engine:
   shallow embedding of the term model, the persistent array, the AST
   transforms, the bytecode compiler and the virtual machine, with
   theorems checking the natural-language specification against them. -/

-- ===== Shared term model (src/ast_common.rs, src/ir.rs) =====

/-- Predicate names tagged with whether they are system predicates
    (ast_common.rs, enum Pred; named Prd here because Pred is taken in Lean). -/
inductive Prd where
  | Sys (name : String) (arity : Nat)
  | User (name : String)
deriving DecidableEq

/-- Predicate signatures (ast_common.rs, struct PredSig). -/
structure PredSig where
  pred : Prd
  arity : Nat
deriving DecidableEq

/-- Runtime values (ir.rs, enum Value). Logic-variable identifiers are i64
    in the source; they are modelled as Int. -/
inductive Value where
  | Atom (a : String)
  | LV (x : Int)
  | Num (n : Int)
  | Ctor (f : String) (args : List Value)

mutual

def Value.decEq : (a b : Value) → Decidable (a = b)
  | .Atom a, .Atom b =>
      if h : a = b then isTrue (by rw [h]) else isFalse (by intro hh; injection hh; contradiction)
  | .Atom _, .LV _ => isFalse (fun h => Value.noConfusion h)
  | .Atom _, .Num _ => isFalse (fun h => Value.noConfusion h)
  | .Atom _, .Ctor _ _ => isFalse (fun h => Value.noConfusion h)
  | .LV _, .Atom _ => isFalse (fun h => Value.noConfusion h)
  | .LV a, .LV b =>
      if h : a = b then isTrue (by rw [h]) else isFalse (by intro hh; injection hh; contradiction)
  | .LV _, .Num _ => isFalse (fun h => Value.noConfusion h)
  | .LV _, .Ctor _ _ => isFalse (fun h => Value.noConfusion h)
  | .Num _, .Atom _ => isFalse (fun h => Value.noConfusion h)
  | .Num _, .LV _ => isFalse (fun h => Value.noConfusion h)
  | .Num a, .Num b =>
      if h : a = b then isTrue (by rw [h]) else isFalse (by intro hh; injection hh; contradiction)
  | .Num _, .Ctor _ _ => isFalse (fun h => Value.noConfusion h)
  | .Ctor _ _, .Atom _ => isFalse (fun h => Value.noConfusion h)
  | .Ctor _ _, .LV _ => isFalse (fun h => Value.noConfusion h)
  | .Ctor _ _, .Num _ => isFalse (fun h => Value.noConfusion h)
  | .Ctor f as, .Ctor g bs =>
      if h : f = g then
        match Value.decEqList as bs with
        | isTrue h2 => isTrue (by rw [h, h2])
        | isFalse h2 => isFalse (by intro hh; injection hh; contradiction)
      else isFalse (by intro hh; injection hh; contradiction)

def Value.decEqList : (as bs : List Value) → Decidable (as = bs)
  | [], [] => isTrue rfl
  | [], _ :: _ => isFalse (fun h => List.noConfusion h)
  | _ :: _, [] => isFalse (fun h => List.noConfusion h)
  | a :: as, b :: bs =>
      match Value.decEq a b, Value.decEqList as bs with
      | isTrue h1, isTrue h2 => isTrue (by rw [h1, h2])
      | isFalse h1, _ => isFalse (by intro hh; injection hh; contradiction)
      | isTrue _, isFalse h2 => isFalse (by intro hh; injection hh; contradiction)

end

instance : DecidableEq Value := Value.decEq

/-- Instructions the VM executes (ir.rs, enum Insn). Labels are i64 and
    offsets isize in the source; both are modelled as Int. -/
inductive Insn where
  | PushValue (v : Value)
  | Pop
  | Dup
  | Fresh
  | Load (i : Nat)
  | Store (i : Nat)
  | Construct (f : String) (n : Nat)
  | Unify
  | MkCheckpoint (label : Int) (offset : Int)
  | Jump (offset : Int)
  | Call (sig : PredSig)
  | Det (label : Int)
  | DetUntil (label : Int)
  | Fail
  | Ret
  | Halt
deriving DecidableEq

-- ===== Persistent linked array (src/unification.rs, enum LinkedArray) =====

/-- Persistent arrays represented as either an ordinary array or a delta to
    a linked persistent array (unification.rs, enum LinkedArray). -/
inductive LinkedArray (T : Type) where
  | Arr (v : List T)
  | Diff (i : Nat) (x : T) (a : LinkedArray T)
deriving DecidableEq

/-- Index lookup (unification.rs, impl ops Index for LinkedArray). The Rust
    indexing panics out of bounds; that case is modelled as none. -/
def LinkedArray.index {T : Type} : LinkedArray T → Nat → Option T
  | .Arr v, i => v.get? i
  | .Diff j x a, i => if i = j then some x else a.index i

/-- Update (unification.rs, LinkedArray update). The source mutates self (via
    mem replace) and returns a new version; modelled as a pair
    (mutated old handle, returned new version). The out-of-bounds panic of
    the slot replacement is modelled as none. -/
def LinkedArray.update {T : Type} : LinkedArray T → Nat → T → Option (LinkedArray T × LinkedArray T)
  | .Arr v, i, x =>
      if h : i < v.length then
        some (.Diff i (v.get ⟨i, h⟩) (.Arr (v.set i x)), .Arr (v.set i x))
      else none
  | .Diff j y a, i, x =>
      some (.Diff j y a, .Diff i x (.Diff j y a))

/-- Re-rooting, Baker optimization (unification.rs, LinkedArray reroot),
    modelled as the value the handle holds after the call; the slot-replace
    panic is none, and the case where the rerooted base is not an Arr is kept
    as the source keeps it (the if-let falls through leaving the diff). -/
def LinkedArray.reroot {T : Type} : LinkedArray T → Option (LinkedArray T)
  | .Arr v => some (.Arr v)
  | .Diff i x a =>
      match a.reroot with
      | none => none
      | some (.Arr v) =>
          if i < v.length then some (.Arr (v.set i x)) else none
      | some d => some (.Diff i x d)

/-- A chain of diff nodes stacked over a base: the shape an older version has
    once updates have been performed on its descendant base. -/
def LinkedArray.plug {T : Type} (ds : List (Nat × T)) (base : LinkedArray T) : LinkedArray T :=
  ds.foldr (fun p acc => LinkedArray.Diff p.1 p.2 acc) base

-- ===== Substitution (modelled from the spec) =====

/-- Modelled from the spec: the persistent substitution, a mapping from
    logic variables to terms (spec section 4.1). The implementation of
    Unification in src/unification.rs is an empty stub (union has no body and
    find is absent), so the store is modelled from the spec words as an
    association list where insert prepends. -/
structure Unification where
  bindings : List (Int × Value)
deriving DecidableEq

/-- Modelled from the spec: the empty substitution (spec section 4.1, new). -/
def Unification.new : Unification := ⟨[]⟩

/-- Lookup of the mapping of one logic variable. -/
def Unification.lookupVar (σ : Unification) (v : Int) : Option Value :=
  (σ.bindings.find? (fun p => p.1 = v)).map (fun p => p.2)

/-- Insert a binding, producing a new version. -/
def Unification.insert (σ : Unification) (v : Int) (t : Value) : Unification :=
  ⟨(v, t) :: σ.bindings⟩

/-- Modelled from the spec: find resolves a term through the substitution to
    its representative (spec section 4.1). For LogicVar v mapped to t
    different from LogicVar v, recurse on t; otherwise return the input;
    non-variable inputs are returned as is. Termination relies on the
    acyclicity invariant in the spec, so the recursion is fuel-bounded here;
    on acyclic substitutions the chain visits distinct bound variables, so a
    fuel of one more than the number of bindings is exact. -/
def Unification.findAux : Nat → Unification → Value → Value
  | 0, _, t => t
  | fuel + 1, σ, t =>
      match t with
      | .LV v =>
          match σ.lookupVar v with
          | some t' => if t' = Value.LV v then t else Unification.findAux fuel σ t'
          | none => t
      | t => t

/-- Modelled from the spec: find with its canonical fuel. -/
def Unification.find (σ : Unification) (t : Value) : Value :=
  Unification.findAux (σ.bindings.length + 1) σ t

mutual

/-- Structural size of a term, used only to pick a concrete fuel. -/
def Value.size : Value → Nat
  | .Atom _ => 1
  | .LV _ => 1
  | .Num _ => 1
  | .Ctor _ args => Value.sizeList args + 1

/-- Structural size of a term list. -/
def Value.sizeList : List Value → Nat
  | [] => 0
  | a :: as => Value.size a + Value.sizeList as

end

/-- Modelled from the spec: union as the source implements it (spec
    section 4.1 steps 1 to 5 together with the bug-compat note of section 9:
    the source iterates compound arguments from index 1, skipping
    argument 0). Recursion goes through terms found in the substitution, so
    it is fuel-bounded. -/
def Unification.unionAux : Nat → Unification → Value → Value → Option Unification
  | 0, _, _, _ => none
  | fuel + 1, σ, x, y =>
      let xr := σ.find x
      let yr := σ.find y
      if xr = yr then some σ
      else
        match xr, yr with
        | .LV v, _ => some (σ.insert v yr)
        | _, .LV v => some (σ.insert v xr)
        | .Ctor f fa, .Ctor g ga =>
            if f = g ∧ fa.length = ga.length then
              ((fa.zip ga).drop 1).foldlM (fun σ2 p => Unification.unionAux fuel σ2 p.1 p.2) σ
            else none
        | _, _ => none

/-- Modelled from the spec: union with a concrete generous fuel. -/
def Unification.union (σ : Unification) (x y : Value) : Option Unification :=
  Unification.unionAux (σ.bindings.length + x.size + y.size + 1) σ x y

/-- The union the spec mandates for reimplementations (spec section 4.1
    step 4 without the source bug): the pairwise argument fold starts at
    index 0, so argument 0 is unified too. Stated from the spec words for
    comparison against the source behaviour. -/
def Unification.unionSpecAux : Nat → Unification → Value → Value → Option Unification
  | 0, _, _, _ => none
  | fuel + 1, σ, x, y =>
      let xr := σ.find x
      let yr := σ.find y
      if xr = yr then some σ
      else
        match xr, yr with
        | .LV v, _ => some (σ.insert v yr)
        | _, .LV v => some (σ.insert v xr)
        | .Ctor f fa, .Ctor g ga =>
            if f = g ∧ fa.length = ga.length then
              (fa.zip ga).foldlM (fun σ2 p => Unification.unionSpecAux fuel σ2 p.1 p.2) σ
            else none
        | _, _ => none

/-- The spec-mandated union with the same fuel scheme. -/
def Unification.unionSpec (σ : Unification) (x y : Value) : Option Unification :=
  Unification.unionSpecAux (σ.bindings.length + x.size + y.size + 1) σ x y

-- ===== Front-end AST (src/ast.rs) =====

/-- AST expressions (ast.rs, enum Expr), parameterised over the variable
    representation. -/
inductive Expr (V : Type) where
  | Atom (a : String)
  | PV (x : V)
  | Num (n : Int)
  | Ctor (f : String) (args : List (Expr V))

mutual

def Expr.decEq {V : Type} [DecidableEq V] : (a b : Expr V) → Decidable (a = b)
  | .Atom a, .Atom b =>
      if h : a = b then isTrue (by rw [h]) else isFalse (by intro hh; injection hh; contradiction)
  | .Atom _, .PV _ => isFalse (fun h => Expr.noConfusion h)
  | .Atom _, .Num _ => isFalse (fun h => Expr.noConfusion h)
  | .Atom _, .Ctor _ _ => isFalse (fun h => Expr.noConfusion h)
  | .PV _, .Atom _ => isFalse (fun h => Expr.noConfusion h)
  | .PV a, .PV b =>
      if h : a = b then isTrue (by rw [h]) else isFalse (by intro hh; injection hh; contradiction)
  | .PV _, .Num _ => isFalse (fun h => Expr.noConfusion h)
  | .PV _, .Ctor _ _ => isFalse (fun h => Expr.noConfusion h)
  | .Num _, .Atom _ => isFalse (fun h => Expr.noConfusion h)
  | .Num _, .PV _ => isFalse (fun h => Expr.noConfusion h)
  | .Num a, .Num b =>
      if h : a = b then isTrue (by rw [h]) else isFalse (by intro hh; injection hh; contradiction)
  | .Num _, .Ctor _ _ => isFalse (fun h => Expr.noConfusion h)
  | .Ctor _ _, .Atom _ => isFalse (fun h => Expr.noConfusion h)
  | .Ctor _ _, .PV _ => isFalse (fun h => Expr.noConfusion h)
  | .Ctor _ _, .Num _ => isFalse (fun h => Expr.noConfusion h)
  | .Ctor f as, .Ctor g bs =>
      if h : f = g then
        match Expr.decEqList as bs with
        | isTrue h2 => isTrue (by rw [h, h2])
        | isFalse h2 => isFalse (by intro hh; injection hh; contradiction)
      else isFalse (by intro hh; injection hh; contradiction)

def Expr.decEqList {V : Type} [DecidableEq V] : (as bs : List (Expr V)) → Decidable (as = bs)
  | [], [] => isTrue rfl
  | [], _ :: _ => isFalse (fun h => List.noConfusion h)
  | _ :: _, [] => isFalse (fun h => List.noConfusion h)
  | a :: as, b :: bs =>
      match Expr.decEq a b, Expr.decEqList as bs with
      | isTrue h1, isTrue h2 => isTrue (by rw [h1, h2])
      | isFalse h1, _ => isFalse (by intro hh; injection hh; contradiction)
      | isTrue _, isFalse h2 => isFalse (by intro hh; injection hh; contradiction)

end

instance {V : Type} [DecidableEq V] : DecidableEq (Expr V) := Expr.decEq

/-- AST statements (ast.rs, enum Stmt). -/
inductive Stmt (V : Type) where
  | And (s1 s2 : Stmt V)
  | Or (s1 s2 : Stmt V)
  | If (s1 s2 s3 : Stmt V)
  | Unify (e1 e2 : Expr V)
  | Call (p : Prd) (args : List (Expr V))
  | Fail
  | True
deriving DecidableEq

/-- Predicate definitions (ast.rs, struct PredDef). -/
structure PredDef (V : Type) where
  name : Prd
  params : List (Expr V)
  body : Stmt V
deriving DecidableEq

/-- Programs (ast.rs, type Program). Named ProgramAst to keep the bytecode
    Program name free. -/
abbrev ProgramAst (V : Type) : Type := List (PredDef V)

-- ===== AST transforms (src/ast/transform.rs) =====

/-- One step of clause collection (transform.rs, ConsolidateDefs
    add_pred_def): group a definition into the per-signature clause list,
    keeping source order inside a signature. The Rust HashMap is modelled as
    an association list in first-insertion order. -/
def ConsolidateDefs.add_pred_def
    (defs : List ((Prd × Nat) × List (List (Expr String) × Stmt String)))
    (pd : PredDef String) :
    List ((Prd × Nat) × List (List (Expr String) × Stmt String)) :=
  let key := (pd.name, pd.params.length)
  if (defs.find? (fun e => e.1 = key)).isSome then
    defs.map (fun e => if e.1 = key then (e.1, e.2 ++ [(pd.params, pd.body)]) else e)
  else
    defs ++ [(key, [(pd.params, pd.body)])]

/-- The consolidation transform (transform.rs, impl Transformer for
    ConsolidateDefs): one definition per signature whose parameters are the
    generated variables of the Rust range 1..n_args and whose body is the
    Fail-seeded disjunction of the clause bodies, each prefixed by the
    True-seeded conjunction of unifications of the zipped parameters. -/
def ConsolidateDefs.transform (program : ProgramAst String) : ProgramAst String :=
  let defs := program.foldl ConsolidateDefs.add_pred_def []
  defs.map (fun e =>
    let pred := e.1.1
    let n_args := e.1.2
    let params : List (Expr String) :=
      (List.range' 1 (n_args - 1)).map (fun i => Expr.PV ("_P" ++ toString i))
    let new_body := e.2.foldl
      (fun acc cl =>
        let param_assignment := (params.zip cl.1).foldl
          (fun acc2 pc => Stmt.And acc2 (Stmt.Unify pc.1 pc.2)) Stmt.True
        Stmt.Or acc (Stmt.And param_assignment cl.2))
      Stmt.Fail
    { name := pred, params := params, body := new_body })

/-- The single-node rewrite IdempotentElim applies at each node in post
    order (transform.rs, IdempotentElim transform_stmt, the match inside the
    traverse_mut closure, with the Rust arm order). -/
def IdempotentElim.elimStep {V : Type} [DecidableEq V] : Stmt V → Stmt V
  | .And s1 s2 =>
      if s1 = Stmt.True then s2
      else if s2 = Stmt.True then s1
      else .And s1 s2
  | .Or s1 s2 =>
      if s1 = Stmt.Fail then s2
      else if s2 = Stmt.Fail then s1
      else .Or s1 s2
  | .If s1 s2 s3 =>
      if s1 = Stmt.Fail then s3
      else if s1 = Stmt.True then s2
      else .If s1 s2 s3
  | s => s

/-- The post-order traversal of transform_stmt: traverse_mut (ast.rs)
    recurses into And, Or and If children and then applies the closure at
    every node. -/
def IdempotentElim.transform_stmt {V : Type} [DecidableEq V] : Stmt V → Stmt V
  | .And s1 s2 =>
      IdempotentElim.elimStep (.And (IdempotentElim.transform_stmt s1) (IdempotentElim.transform_stmt s2))
  | .Or s1 s2 =>
      IdempotentElim.elimStep (.Or (IdempotentElim.transform_stmt s1) (IdempotentElim.transform_stmt s2))
  | .If s1 s2 s3 =>
      IdempotentElim.elimStep (.If (IdempotentElim.transform_stmt s1) (IdempotentElim.transform_stmt s2) (IdempotentElim.transform_stmt s3))
  | s => IdempotentElim.elimStep s

/-- The whole-program transform (transform.rs, impl InplaceTransformer for
    IdempotentElim): rewrite every predicate body. -/
def IdempotentElim.transform {V : Type} [DecidableEq V] (p : ProgramAst V) : ProgramAst V :=
  p.map (fun pd => { pd with body := IdempotentElim.transform_stmt pd.body })

-- ===== Bytecode compiler (src/ir_gen.rs) =====

mutual

/-- Expression compilation (ir_gen.rs, IRGen compile_expr): post order,
    pushing one term on the operand stack. -/
def IRGen.compile_expr : Expr Nat → List Insn
  | .Atom a => [Insn.PushValue (Value.Atom a)]
  | .PV x => [Insn.Load x]
  | .Num n => [Insn.PushValue (Value.Num n)]
  | .Ctor f args => IRGen.compile_expr_list args ++ [Insn.Construct f args.length]

/-- Code of a list of expressions, in list order. -/
def IRGen.compile_expr_list : List (Expr Nat) → List Insn
  | [] => []
  | e :: es => IRGen.compile_expr e ++ IRGen.compile_expr_list es

end

/-- Statement compilation (ir_gen.rs, IRGen compile_stmt), threading the
    label counter; the result is the emitted code segment together with the
    next counter. The If arm panics (not implemented) in the source, which
    is modelled as none. Offsets in the Or arm are the length differences
    the source computes on current_ir_code. -/
def IRGen.compile_stmt : Stmt Nat → Int → Option (List Insn × Int)
  | .And s1 s2, lc => do
      let r1 ← IRGen.compile_stmt s1 lc
      let r2 ← IRGen.compile_stmt s2 r1.2
      pure (r1.1 ++ r2.1, r2.2)
  | .Or s1 s2, lc => do
      let label := lc + 1
      let r1 ← IRGen.compile_stmt s1 label
      let r2 ← IRGen.compile_stmt s2 r1.2
      pure ([Insn.MkCheckpoint label ((r1.1.length : Int) + 1)] ++ r1.1 ++
              [Insn.Jump ((r2.1.length : Int) + 1)] ++ r2.1, r2.2)
  | .If _ _ _, _ => none
  | .Unify e1 e2, lc =>
      some (IRGen.compile_expr e1 ++ IRGen.compile_expr e2 ++ [Insn.Unify], lc)
  | .Call p args, lc =>
      some (IRGen.compile_expr_list args.reverse ++ [Insn.Call ⟨p, args.length⟩], lc)
  | .Fail, lc => some ([Insn.Fail], lc)
  | .True, lc => some ([], lc)

/-- Parameter prologue (ir_gen.rs, IRGen compile_params): for each parameter
    push its expression and unify it with the argument on the stack. -/
def IRGen.compile_params : List (Expr Nat) → List Insn
  | [] => []
  | p :: ps => (IRGen.compile_expr p ++ [Insn.Unify]) ++ IRGen.compile_params ps

/-- Accumulate a local index if it is not present yet. The Rust code uses a
    HashSet whose iteration order is unspecified; first-occurrence order is
    a concrete refinement of it. -/
def IRGen.insertLocal (acc : List Nat) (n : Nat) : List Nat :=
  if n ∈ acc then acc else acc ++ [n]

/-- One scan step of the used-locals collection: record the index of a Load
    instruction. -/
def IRGen.used_locals_step (acc : List Nat) (i : Insn) : List Nat :=
  match i with
  | Insn.Load n => IRGen.insertLocal acc n
  | _ => acc

/-- The distinct local indices loaded in a code segment (ir_gen.rs,
    compile_pred, the used_locals scan). -/
def IRGen.used_locals (code : List Insn) : List Nat :=
  code.foldl IRGen.used_locals_step []

/-- Predicate compilation (ir_gen.rs, IRGen compile_pred): parameter
    unification code, then the body, a Halt when the predicate is main of
    arity zero, and a Fresh-Store prologue for every distinct loaded local
    prepended in front. Defining a system predicate panics in the source and
    is none here, as is the If panic inside the body. The redefinition and
    mid-compilation asserts concern compiler state that the pure model does
    not carry. -/
def IRGen.compile_pred (pd : PredDef Nat) (lc : Int) : Option (List Insn × Int) :=
  match pd.name with
  | Prd.Sys _ _ => none
  | Prd.User name =>
      match IRGen.compile_stmt pd.body lc with
      | none => none
      | some body =>
          let code := IRGen.compile_params pd.params ++ body.1 ++
            (if name = "main" ∧ pd.params.length = 0 then [Insn.Halt] else [])
          some ((IRGen.used_locals code).flatMap (fun n => [Insn.Fresh, Insn.Store n]) ++ code, body.2)

-- ===== Term printing (src/ir.rs, impl fmt Display for Value) =====

mutual

/-- The printed form of a runtime value (ir.rs, impl fmt Display for
    Value): an atom prints as its name, a logic variable as _LV followed by
    the id, an integer in decimal, and a compound as the concatenation of
    the printed arguments followed by the functor. -/
def Value.display : Value → String
  | .Atom a => a
  | .LV x => "_LV" ++ toString x
  | .Num n => toString n
  | .Ctor f args => Value.displayList args ++ f

/-- Concatenation of the printed forms of a list of values, in order. -/
def Value.displayList : List Value → String
  | [] => ""
  | a :: as => Value.display a ++ Value.displayList as

end

-- ===== VM domains (src/domains.rs) =====

/-- Frame-local state (domains.rs, struct LocalState). The operand stack is
    a Rust Vec pushed and popped at its end; it is modelled as a list whose
    head is the top. The im-rc HashMap of locals is modelled as an
    association list where an update prepends and lookup takes the newest
    entry. -/
structure LocalState where
  locals : List (Nat × Value)
  op_stack : List Value
  predicate : PredSig
  frame_depth : Nat
deriving DecidableEq

/-- Fresh frame state (domains.rs, LocalState new). -/
def LocalState.new (predicate : PredSig) (frame_depth : Nat) : LocalState :=
  { locals := [], op_stack := [], predicate := predicate, frame_depth := frame_depth }

/-- Push a value (domains.rs, LocalState push_value). -/
def LocalState.push_value (ls : LocalState) (v : Value) : LocalState :=
  { ls with op_stack := v :: ls.op_stack }

/-- Lookup of a local slot. -/
def LocalState.getLocal (ls : LocalState) (i : Nat) : Option Value :=
  (ls.locals.find? (fun p => p.1 = i)).map (fun p => p.2)

/-- Checkpoints (domains.rs, struct Checkpoint): a label, a snapshot of the
    frame, the substitution, the resume PC and the call stack. Note that the
    fresh-variable counter gen_idx is not part of a checkpoint. -/
structure Checkpoint where
  label : Nat × Int
  local_state : LocalState
  bindings : Unification
  pc : Nat
  call_stack : List (LocalState × Nat)
deriving DecidableEq

/-- The whole VM state (domains.rs, struct State). gen_idx is i64 in the
    source (with the usual Rust overflow behaviour far outside any run
    modelled here) and is an Int here. -/
structure State where
  local_state : LocalState
  bindings : Unification
  cp_stack : List Checkpoint
  pc : Nat
  call_stack : List (LocalState × Nat)
  gen_idx : Int
  unify_count : Nat
deriving DecidableEq

/-- The initial state (domains.rs, State new). -/
def State.new : State :=
  { local_state := LocalState.new ⟨Prd.User "main", 0⟩ 0
    bindings := Unification.new
    cp_stack := []
    pc := 0
    call_stack := []
    gen_idx := 0
    unify_count := 0 }

/-- Allocate a fresh logic variable (domains.rs, State fresh_lv): increment
    gen_idx and build the variable from the incremented counter. The source
    mutates the state and returns the value; modelled as a pair. -/
def State.fresh_lv (s : State) : Value × State :=
  (Value.LV (s.gen_idx + 1), { s with gen_idx := s.gen_idx + 1 })

/-- Return from a predicate call (domains.rs, State ret): pop a saved frame
    and return PC off the call stack and restore them; on an empty call
    stack the Option map yields None. -/
def State.ret (s : State) : Option State :=
  match s.call_stack with
  | [] => none
  | (ls, pc) :: rest => some { s with local_state := ls, pc := pc, call_stack := rest }

/-- Load one checkpoint as the state (domains.rs, State load_checkpoint):
    restore frame, substitution, PC and call stack; cp_stack, gen_idx and
    unify_count keep their current values. -/
def State.load_checkpoint (s : State) (cp : Checkpoint) : State :=
  { s with
    local_state := cp.local_state
    bindings := cp.bindings
    pc := cp.pc
    call_stack := cp.call_stack }

/-- Backtracking (domains.rs, State load_next_checkpoint): pop the topmost
    choice point and load it; none when the choice-point stack is empty. -/
def State.load_next_checkpoint (s : State) : Option State :=
  match s.cp_stack with
  | [] => none
  | cp :: rest => some (State.load_checkpoint { s with cp_stack := rest } cp)

/-- Result of an operation that may hit a Rust panic. -/
inductive StepRes (α : Type) where
  | crash (msg : String)
  | ok (a : α)
deriving DecidableEq

/-- Unify the top two stack values (domains.rs, State unify): the first pop
    is named x in the source (the top of the stack), the second y; on union
    success the substitution is replaced and the success counter bumped; on
    union failure the next checkpoint is loaded; fewer than two stack values
    panic. -/
def State.unify (s : State) : StepRes (Option State) :=
  match s.local_state.op_stack with
  | x :: y :: rest =>
      let s1 := { s with local_state := { s.local_state with op_stack := rest } }
      match Unification.union s.bindings x y with
      | some nb => StepRes.ok (some { s1 with bindings := nb, unify_count := s1.unify_count + 1 })
      | none => StepRes.ok (State.load_next_checkpoint s1)
  | _ => StepRes.crash "Program error. Not enough values to unify!"

/-- User predicate call (domains.rs, State call_user): save the current
    frame and PC, enter a fresh frame of depth one more, and move the PC to
    the beginning. -/
def State.call_user (s : State) (pred : String) (argc : Nat) : State :=
  let new_frame_depth := s.local_state.frame_depth + 1
  { s with
    local_state := LocalState.new ⟨Prd.User pred, argc⟩ new_frame_depth
    call_stack := (s.local_state, s.pc) :: s.call_stack
    pc := 0 }

-- ===== VM step (src/vm.rs) =====

/-- Bytecode programs (ir.rs, struct Program). The HashMap from signatures
    to code is an association list here. -/
structure Program where
  text : List (PredSig × List Insn)

/-- Code lookup by signature. -/
def Program.lookupSig (p : Program) (sig : PredSig) : Option (List Insn) :=
  ((p.text.find? (fun e => e.1 = sig)).map (fun e => e.2))

/-- The instruction fetched for a state (vm.rs, next: the indexing of the
    program text by the current predicate and PC, both Rust panics on a
    missing key or out-of-range PC modelled as none). -/
def Program.fetch (p : Program) (s : State) : Option Insn :=
  (p.lookupSig s.local_state.predicate).bind (fun code => code.get? s.pc)

/-- Whether a system predicate exists in the built-in registry
    (builtins.rs, BuiltIns new and exists): only print of arity 1. -/
def builtinExists (name : String) (arity : Nat) : Bool :=
  name = "print" ∧ arity = 1

/-- Execute one fetched instruction on a state whose PC has already been
    advanced (vm.rs, the match inside next). Rust panics (stack underflow,
    missing local, unimplemented checkpoint instructions, missing built-in)
    are crash results. The print built-in consumes its argument and
    succeeds; its standard-output effect is not modelled. -/
def execInsn (insn : Insn) (s : State) : StepRes (Option State) :=
  match insn with
  | Insn.PushValue v => StepRes.ok (some { s with local_state := s.local_state.push_value v })
  | Insn.Pop =>
      StepRes.ok (some { s with local_state := { s.local_state with op_stack := s.local_state.op_stack.tail } })
  | Insn.Dup =>
      match s.local_state.op_stack with
      | [] => StepRes.crash "dup on empty stack"
      | v :: rest => StepRes.ok (some { s with local_state := { s.local_state with op_stack := v :: v :: rest } })
  | Insn.Fresh =>
      let r := s.fresh_lv
      StepRes.ok (some { r.2 with local_state := r.2.local_state.push_value r.1 })
  | Insn.Load i =>
      match s.local_state.getLocal i with
      | none => StepRes.crash "load of unbound local"
      | some v => StepRes.ok (some { s with local_state := s.local_state.push_value v })
  | Insn.Store i =>
      match s.local_state.op_stack with
      | [] => StepRes.crash "store on empty stack"
      | v :: rest =>
          StepRes.ok (some { s with local_state :=
            { s.local_state with locals := (i, v) :: s.local_state.locals, op_stack := rest } })
  | Insn.Construct f n =>
      if n ≤ s.local_state.op_stack.length then
        let args := (s.local_state.op_stack.take n).reverse
        let rest := s.local_state.op_stack.drop n
        StepRes.ok (some { s with local_state :=
          { s.local_state with op_stack := Value.Ctor f args :: rest } })
      else StepRes.crash "construct on short stack"
  | Insn.Unify => s.unify
  | Insn.MkCheckpoint _ _ => StepRes.crash "not implemented"
  | Insn.Jump offset =>
      StepRes.ok (some { s with pc := (((s.pc : Int) + offset) % ((2 : Int) ^ 64)).toNat })
  | Insn.Call sig =>
      match sig.pred with
      | Prd.User pred => StepRes.ok (some (s.call_user pred sig.arity))
      | Prd.Sys pred arity =>
          if builtinExists pred arity then
            if arity ≤ s.local_state.op_stack.length then
              StepRes.ok (some { s with local_state :=
                { s.local_state with op_stack := s.local_state.op_stack.drop arity } })
            else StepRes.crash "builtin call on short stack"
          else StepRes.crash "the built-in predicate does not exist"
  | Insn.Det _ => StepRes.crash "not implemented"
  | Insn.DetUntil _ => StepRes.crash "not implemented"
  | Insn.Fail => StepRes.ok s.load_next_checkpoint
  | Insn.Ret => StepRes.ok s.ret
  | Insn.Halt => StepRes.ok (some s)

/-- One VM step on a live state (vm.rs, next): the PC is advanced by one
    first, then the instruction at the new PC is fetched and executed. -/
def vmNext (p : Program) (s : State) : StepRes (Option State) :=
  let s1 := { s with pc := s.pc + 1 }
  match p.fetch s1 with
  | none => StepRes.crash "no instruction at the program counter"
  | some insn => execInsn insn s1

/-- Iterated stepping from a state: the run after n steps, none once the
    state died or a panic was hit. -/
def runFrom (p : Program) (s : State) : Nat → Option State
  | 0 => some s
  | n + 1 =>
      (runFrom p s n).bind (fun st =>
        match vmNext p st with
        | StepRes.ok r => r
        | StepRes.crash _ => none)

-- ===== Property-level definitions used by the theorems =====

/-- Whether a statement node is, at its root, one of the six True/Fail
    reducible forms of the IdempotentElim table. -/
def Stmt.isRedex {V : Type} [DecidableEq V] : Stmt V → Bool
  | .And s1 s2 => decide (s1 = Stmt.True) || decide (s2 = Stmt.True)
  | .Or s1 s2 => decide (s1 = Stmt.Fail) || decide (s2 = Stmt.Fail)
  | .If s1 _ _ => decide (s1 = Stmt.Fail) || decide (s1 = Stmt.True)
  | _ => false

/-- Whether any sub-statement (the statement itself included) is one of the
    six reducible forms. -/
def Stmt.hasRedex {V : Type} [DecidableEq V] : Stmt V → Bool
  | .And s1 s2 => Stmt.isRedex (Stmt.And s1 s2) || s1.hasRedex || s2.hasRedex
  | .Or s1 s2 => Stmt.isRedex (Stmt.Or s1 s2) || s1.hasRedex || s2.hasRedex
  | .If s1 s2 s3 => Stmt.isRedex (Stmt.If s1 s2 s3) || s1.hasRedex || s2.hasRedex || s3.hasRedex
  | s => Stmt.isRedex s

/-- The step taken from state s fetches a Fresh instruction: vmNext advances
    the PC by one and executes the instruction found there. -/
def stepExecutesFresh (p : Program) (s : State) : Prop :=
  p.fetch { s with pc := s.pc + 1 } = some Insn.Fresh

-- Concrete states and programs used by counterexamples and witnesses.

/-- A state whose operand stack holds the logic variable 2 on top of the
    logic variable 1. -/
def exC4State : State :=
  { State.new with local_state := { State.new.local_state with op_stack := [Value.LV 2, Value.LV 1] } }

/-- The state State.unify produces from exC4State. -/
def exC4Result : State :=
  { State.new with
    local_state := { State.new.local_state with op_stack := [] }
    bindings := ⟨[(2, Value.LV 1)]⟩
    unify_count := 1 }

/-- A one-predicate program whose main body ends in Ret (index 0 is never
    executed because the VM advances the PC before fetching). -/
def exC5Program : Program := ⟨[(⟨Prd.User "main", 0⟩, [Insn.Halt, Insn.Ret])]⟩

/-- The code the compiler emits for Or(Fail, Fail), embedded in main behind
    the skipped index 0, with the continuation instruction after s2 at
    index 5. -/
def exC3Program : Program :=
  ⟨[(⟨Prd.User "main", 0⟩,
    [Insn.Halt, Insn.MkCheckpoint 1 2, Insn.Fail, Insn.Jump 2, Insn.Fail, Insn.Halt])]⟩

/-- A main predicate of three Fresh instructions, for the run-level
    freshness witness. -/
def exC10Program : Program :=
  ⟨[(⟨Prd.User "main", 0⟩, [Insn.Fresh, Insn.Fresh, Insn.Fresh])]⟩

/-- The state of exC10Program after one step: the Fresh at index 1 has
    executed. -/
def exC10State1 : State :=
  { State.new with
    pc := 1
    gen_idx := 1
    local_state := { State.new.local_state with op_stack := [Value.LV 1] } }

/-- A one-definition program with a removable Or(True, Fail) body, for the
    IdempotentElim witness. -/
def exC9Program : ProgramAst Nat :=
  [⟨Prd.User "p", [], Stmt.Or Stmt.True Stmt.Fail⟩]

/-- A one-clause predicate with one local, for the prologue witness. -/
def exC7PredDef : PredDef Nat :=
  ⟨Prd.User "q", [Expr.PV 0], Stmt.Unify (Expr.PV 0) (Expr.Atom "a")⟩

-- ===== Theorems =====

/-- C1: the claim says union unifies the pairwise compound arguments from
    index 0 inclusive, but the source (per the spec bug-compat note that the
    missing union implementation iterates indices 1..len) skips argument 0:
    on f(a) against f(b) the modelled source union succeeds with no new
    binding, while the spec-mandated fold from index 0 fails. -/
theorem C1_union_skips_argument_zero :
    Unification.union Unification.new
      (Value.Ctor "f" [Value.Atom "a"]) (Value.Ctor "f" [Value.Atom "b"]) =
        some Unification.new ∧
    Unification.unionSpec Unification.new
      (Value.Ctor "f" [Value.Atom "a"]) (Value.Ctor "f" [Value.Atom "b"]) = none := by
  decide

/-- C2: the claim says ConsolidateDefs generates one fresh parameter per
    argument position, but the source builds the Rust range 1..n_args, so an
    arity-1 predicate gets an empty parameter list and its original
    parameter expression is never bound: consolidating the single clause
    p(a) yields no parameters and a body whose conjunction holds no
    unification at all. -/
theorem C2_consolidate_drops_last_parameter :
    ConsolidateDefs.transform [⟨Prd.User "p", [Expr.Atom "a"], Stmt.True⟩] =
      [⟨Prd.User "p", [], Stmt.Or Stmt.Fail (Stmt.And Stmt.True Stmt.True)⟩] := by
  decide

/-- C3: for Or(Fail, Fail) the compiler emits MkCheckpoint(1, 2), Fail,
    Jump(2), Fail; the checkpoint resume PC lands on the Jump so that the
    pre-increment step resumes at the first instruction of s2 as the claim
    says, but the jump offset is the length of s2 plus one, so after the
    jump (placed at index 3 of the surrounding main, with pc 5 set) the next
    pre-increment step fetches index 6, skipping the continuation
    instruction at index 5 that sits one past the end of s2. -/
theorem C3_or_jump_offset_off_by_one :
    IRGen.compile_stmt (Stmt.Or Stmt.Fail Stmt.Fail) 0 =
      some ([Insn.MkCheckpoint 1 2, Insn.Fail, Insn.Jump 2, Insn.Fail], 1) ∧
    vmNext exC3Program { State.new with pc := 2 } =
      StepRes.ok (some { State.new with pc := 5 }) ∧
    vmNext exC3Program { State.new with pc := 5 } =
      StepRes.crash "no instruction at the program counter" := by
  refine ⟨by decide, by decide, by decide⟩

/-- C5 counterexample: executing Ret on a state with an empty call stack
    sends the VM to the None state, the very state that denotes global
    failure, refuting the claim that such a termination avoids None. -/
theorem C5_ret_empty_call_stack_gives_none :
    vmNext exC5Program State.new = StepRes.ok none := by
  decide

/-- C8 counterexample: the term printer renders Compound(f, [a, b]) as the
    concatenation of the argument renderings followed by the functor, abf,
    not as the claimed functor-first parenthesised comma-separated form. -/
theorem C8_compound_prints_postfix :
    Value.display (Value.Ctor "f" [Value.Atom "a", Value.Atom "b"]) = "abf" ∧
    ("abf" : String) ≠ "f(a, b)" := by
  decide

/-- The concatenated rendering of a value list is the fold of the
    individual renderings. -/
theorem Value.displayList_eq_foldr (args : List Value) :
    Value.displayList args = (args.map Value.display).foldr (fun x y => x ++ y) "" := by
  induction args with
  | nil => rfl
  | cons a as ih => simp [Value.displayList, ih]

/-- C8 amended: the printer renders Atom(a) as the atom name, Integer(n) in
    decimal, LogicVar(id) as _LV followed by the id, and Compound(f, args)
    as the concatenation of the rendered arguments followed by the functor
    name; an empty-arity compound prints as just f. -/
theorem C8_display_characterisation (a : String) (n id : Int) (f : String) (args : List Value) :
    Value.display (Value.Atom a) = a ∧
    Value.display (Value.Num n) = toString n ∧
    Value.display (Value.LV id) = "_LV" ++ toString id ∧
    Value.display (Value.Ctor f args) = (args.map Value.display).foldr (fun x y => x ++ y) "" ++ f ∧
    Value.display (Value.Ctor f []) = f := by
  refine ⟨rfl, rfl, rfl, ?_, ?_⟩
  · simp [Value.display, Value.displayList_eq_foldr]
  · rfl

/-- C5 amended: Ret with a non-empty call stack pops the saved frame and
    return PC and restores them; Ret with an empty call stack moves the VM
    to the None state, which is the same terminal state that denotes global
    failure, so the termination is not distinguishable from failure. -/
theorem C5_ret_characterisation (p : Program) (s : State)
    (hf : p.fetch { s with pc := s.pc + 1 } = some Insn.Ret) :
    (s.call_stack = [] → vmNext p s = StepRes.ok none) ∧
    (∀ ls pc2 rest, s.call_stack = (ls, pc2) :: rest →
      vmNext p s = StepRes.ok (some { s with local_state := ls, pc := pc2, call_stack := rest })) := by
  obtain ⟨ls0, b0, cps0, pc0, cs0, g0, u0⟩ := s
  constructor
  · intro h
    subst h
    simp [vmNext, hf, execInsn, State.ret]
  · intro ls pc2 rest h
    subst h
    simp [vmNext, hf, execInsn, State.ret]

/-- Witness for the Ret characterisation at concrete inputs: the empty-call-
    stack branch on the initial state and the restore branch on a state with
    one saved frame. -/
theorem C5_ret_characterisation_witness :
    vmNext exC5Program State.new = StepRes.ok none ∧
    vmNext exC5Program
        { State.new with call_stack := [(LocalState.new ⟨Prd.User "main", 0⟩ 0, 7)] } =
      StepRes.ok (some { State.new with
        local_state := LocalState.new ⟨Prd.User "main", 0⟩ 0, pc := 7, call_stack := [] }) :=
  ⟨(C5_ret_characterisation exC5Program State.new (by decide)).1 rfl,
   (C5_ret_characterisation exC5Program
      { State.new with call_stack := [(LocalState.new ⟨Prd.User "main", 0⟩ 0, 7)] }
      (by decide)).2 (LocalState.new ⟨Prd.User "main", 0⟩ 0) 7 [] rfl⟩

/-- C4 counterexample: with the logic variable 2 on top of the stack and the
    logic variable 1 beneath, the source passes the top value as the first
    union argument, producing the binding 2 to 1; the claim predicts
    union(beneath, top), which produces the different binding 1 to 2. -/
theorem C4_unify_argument_order :
    State.unify exC4State = StepRes.ok (some exC4Result) ∧
    Unification.union exC4State.bindings (Value.LV 1) (Value.LV 2) =
      some ⟨[(1, Value.LV 2)]⟩ ∧
    exC4Result.bindings ≠ (⟨[(1, Value.LV 2)]⟩ : Unification) := by
  refine ⟨by decide, by decide, by decide⟩

/-- C4 amended: Unify pops the top of the stack as x and the value beneath
    as y and on success replaces the substitution with union(x, y), the top
    being the first argument; on unification failure it pops the topmost
    choice point and restores frame, call stack, substitution and PC from
    it, and with an empty choice-point stack the state transitions to
    None. -/
theorem C4_unify_characterisation (s : State) (x y : Value) (rest : List Value)
    (h : s.local_state.op_stack = x :: y :: rest) :
    (∀ nb, Unification.union s.bindings x y = some nb →
      State.unify s = StepRes.ok (some
        { s with
          local_state := { s.local_state with op_stack := rest }
          bindings := nb
          unify_count := s.unify_count + 1 })) ∧
    (Unification.union s.bindings x y = none → s.cp_stack = [] →
      State.unify s = StepRes.ok none) ∧
    (∀ cp rest2, Unification.union s.bindings x y = none → s.cp_stack = cp :: rest2 →
      State.unify s = StepRes.ok (some
        { local_state := cp.local_state
          bindings := cp.bindings
          cp_stack := rest2
          pc := cp.pc
          call_stack := cp.call_stack
          gen_idx := s.gen_idx
          unify_count := s.unify_count })) := by
  obtain ⟨⟨lsl, lso, lsp, lsf⟩, b0, cps0, pc0, cs0, g0, u0⟩ := s
  simp only at h
  subst h
  refine ⟨?_, ?_, ?_⟩
  · intro nb hu
    simp [State.unify, hu]
  · intro hu hcp
    subst hcp
    simp [State.unify, hu, State.load_next_checkpoint]
  · intro cp rest2 hu hcp
    subst hcp
    simp [State.unify, hu, State.load_next_checkpoint, State.load_checkpoint]

/-- Witness for the Unify characterisation: unifying two equal atoms on a
    concrete state succeeds with the substitution unchanged. -/
theorem C4_unify_characterisation_witness :
    State.unify { State.new with local_state :=
        { State.new.local_state with op_stack := [Value.Atom "a", Value.Atom "a"] } } =
      StepRes.ok (some { State.new with
        local_state := { State.new.local_state with op_stack := [] }
        bindings := Unification.new
        unify_count := 1 }) :=
  (C4_unify_characterisation
    { State.new with local_state :=
        { State.new.local_state with op_stack := [Value.Atom "a", Value.Atom "a"] } }
    (Value.Atom "a") (Value.Atom "a") [] rfl).1 Unification.new (by decide)

/-- After an update, the mutated old handle still denotes the mapping it
    denoted before: at the updated slot it records the displaced old value,
    elsewhere it reads through the new base. -/
theorem LinkedArray.index_update_old {T : Type} (a : LinkedArray T) (i : Nat) (x : T)
    (old nw : LinkedArray T) (h : a.update i x = some (old, nw)) (j : Nat) :
    old.index j = a.index j := by
  cases a with
  | Arr v =>
      by_cases hlen : i < v.length
      · simp only [LinkedArray.update, dif_pos hlen, Option.some.injEq, Prod.mk.injEq] at h
        obtain ⟨h1, h2⟩ := h
        subst h1
        simp only [LinkedArray.index]
        by_cases hij : j = i
        · subst hij
          simp [List.get?_eq_get hlen]
        · simp [hij, List.getElem?_set_ne (fun hh => hij hh.symm)]
      · simp [LinkedArray.update, dif_neg hlen] at h
  | Diff k y b =>
      simp only [LinkedArray.update, Option.some.injEq, Prod.mk.injEq] at h
      obtain ⟨h1, h2⟩ := h
      subst h1
      rfl

/-- C6: an update performed on a version leaves every older version built
    over it unaffected: any lookup through a chain of diff nodes stacked on
    the updated handle reads the same value after the update as before. -/
theorem C6_update_persistence {T : Type} (a : LinkedArray T) (i : Nat) (x : T)
    (old nw : LinkedArray T) (ds : List (Nat × T)) (j : Nat)
    (h : a.update i x = some (old, nw)) :
    (LinkedArray.plug ds old).index j = (LinkedArray.plug ds a).index j := by
  induction ds with
  | nil => exact LinkedArray.index_update_old a i x old nw h j
  | cons d ds ih =>
      simp only [LinkedArray.plug, List.foldr_cons, LinkedArray.index]
      by_cases hd : j = d.1
      · simp [hd]
      · simpa [hd] using ih

/-- Witness for the update persistence: updating slot 0 of the base array
    [5, 6] to 9 leaves a one-diff older version reading 5 at slot 0. -/
theorem C6_update_persistence_witness :
    (LinkedArray.plug [(1, 7)] (LinkedArray.Diff 0 5 (LinkedArray.Arr [9, 6]))).index 0 =
      (LinkedArray.plug [(1, 7)] (LinkedArray.Arr ([5, 6] : List Nat))).index 0 :=
  C6_update_persistence (LinkedArray.Arr [5, 6]) 0 9
    (LinkedArray.Diff 0 5 (LinkedArray.Arr [9, 6])) (LinkedArray.Arr [9, 6])
    [(1, 7)] 0 (by decide)

/-- Inserting into the accumulator keeps it duplicate-free. -/
theorem IRGen.insertLocal_nodup (acc : List Nat) (n : Nat) (h : acc.Nodup) :
    (IRGen.insertLocal acc n).Nodup := by
  unfold IRGen.insertLocal
  by_cases hm : n ∈ acc
  · simp [hm, h]
  · simp [hm, List.nodup_append, h]

/-- Inserting into the accumulator keeps every element already present. -/
theorem IRGen.insertLocal_mem (acc : List Nat) (n m : Nat) (h : m ∈ acc) :
    m ∈ IRGen.insertLocal acc n := by
  unfold IRGen.insertLocal
  by_cases hm : n ∈ acc
  · simpa [hm]
  · simp [hm, h]

/-- The inserted element is present afterwards. -/
theorem IRGen.insertLocal_mem_self (acc : List Nat) (n : Nat) :
    n ∈ IRGen.insertLocal acc n := by
  unfold IRGen.insertLocal
  by_cases hm : n ∈ acc
  · simp [hm]
  · simp [hm]

/-- The used-locals scan keeps the accumulator duplicate-free. -/
theorem IRGen.used_locals_fold_nodup (code : List Insn) (acc : List Nat) (h : acc.Nodup) :
    (code.foldl IRGen.used_locals_step acc).Nodup := by
  induction code generalizing acc with
  | nil => simpa
  | cons i rest ih =>
      apply ih
      cases i <;> simp [IRGen.used_locals_step, h]
      exact IRGen.insertLocal_nodup acc _ h

/-- The used-locals scan keeps every element already accumulated. -/
theorem IRGen.used_locals_fold_mem_acc (code : List Insn) (acc : List Nat) (m : Nat)
    (h : m ∈ acc) : m ∈ code.foldl IRGen.used_locals_step acc := by
  induction code generalizing acc with
  | nil => simpa
  | cons i rest ih =>
      apply ih
      cases i <;> simp [IRGen.used_locals_step, h]
      exact IRGen.insertLocal_mem acc _ m h

/-- Every loaded index of the code ends up in the scan result. -/
theorem IRGen.used_locals_fold_mem (code : List Insn) (acc : List Nat) (n : Nat)
    (h : Insn.Load n ∈ code) : n ∈ code.foldl IRGen.used_locals_step acc := by
  induction code generalizing acc with
  | nil => cases h
  | cons i rest ih =>
      rcases List.mem_cons.mp h with h1 | h2
      · subst h1
        exact IRGen.used_locals_fold_mem_acc rest _ n (IRGen.insertLocal_mem_self acc n)
      · exact ih (IRGen.used_locals_step acc i) h2

/-- C7: every compiled user predicate is a prologue followed by its body
    code, where the prologue is the Fresh then Store pair for each distinct
    loaded local, each local appearing exactly once, and every index n with
    Load(n) in the body is covered by such a pair. -/
theorem C7_fresh_store_prologue (pd : PredDef Nat) (lc : Int) (code : List Insn) (lc2 : Int)
    (h : IRGen.compile_pred pd lc = some (code, lc2)) :
    ∃ body,
      code = (IRGen.used_locals body).flatMap (fun n => [Insn.Fresh, Insn.Store n]) ++ body ∧
      (IRGen.used_locals body).Nodup ∧
      (∀ n, Insn.Load n ∈ body → n ∈ IRGen.used_locals body) := by
  obtain ⟨nm0, params0, body0⟩ := pd
  cases nm0 with
  | Sys nm ar =>
      unfold IRGen.compile_pred at h
      exact Option.noConfusion h
  | User name =>
      unfold IRGen.compile_pred at h
      dsimp only at h
      cases hb : IRGen.compile_stmt body0 lc with
      | none =>
          rw [hb] at h
          exact Option.noConfusion h
      | some b =>
          rw [hb] at h
          simp only [Option.some.injEq, Prod.mk.injEq] at h
          obtain ⟨hcode, hlc⟩ := h
          refine ⟨IRGen.compile_params params0 ++ b.1 ++
            (if name = "main" ∧ params0.length = 0 then [Insn.Halt] else []), ?_, ?_, ?_⟩
          · exact hcode.symm
          · exact IRGen.used_locals_fold_nodup _ [] List.nodup_nil
          · intro n hn
            exact IRGen.used_locals_fold_mem _ [] n hn

/-- Witness for the prologue theorem on a one-local predicate. -/
theorem C7_fresh_store_prologue_witness :
    ∃ body,
      [Insn.Fresh, Insn.Store 0, Insn.Load 0, Insn.Unify, Insn.Load 0,
        Insn.PushValue (Value.Atom "a"), Insn.Unify] =
        (IRGen.used_locals body).flatMap (fun n => [Insn.Fresh, Insn.Store n]) ++ body ∧
      (IRGen.used_locals body).Nodup ∧
      (∀ n, Insn.Load n ∈ body → n ∈ IRGen.used_locals body) :=
  C7_fresh_store_prologue exC7PredDef 0
    [Insn.Fresh, Insn.Store 0, Insn.Load 0, Insn.Unify, Insn.Load 0,
      Insn.PushValue (Value.Atom "a"), Insn.Unify] 0 (by decide)

/-- The single rewrite step on an And node with reduced children yields a
    reduced statement. -/
theorem IdempotentElim.elimStep_and_noRedex {V : Type} [DecidableEq V] (s1 s2 : Stmt V)
    (h1 : s1.hasRedex = false) (h2 : s2.hasRedex = false) :
    (IdempotentElim.elimStep (Stmt.And s1 s2)).hasRedex = false := by
  unfold IdempotentElim.elimStep
  by_cases e1 : s1 = Stmt.True
  · simpa [e1]
  · by_cases e2 : s2 = Stmt.True
    · simpa [e1, e2]
    · simp [e1, e2, Stmt.hasRedex, Stmt.isRedex, h1, h2]

/-- The single rewrite step on an Or node with reduced children yields a
    reduced statement. -/
theorem IdempotentElim.elimStep_or_noRedex {V : Type} [DecidableEq V] (s1 s2 : Stmt V)
    (h1 : s1.hasRedex = false) (h2 : s2.hasRedex = false) :
    (IdempotentElim.elimStep (Stmt.Or s1 s2)).hasRedex = false := by
  unfold IdempotentElim.elimStep
  by_cases e1 : s1 = Stmt.Fail
  · simpa [e1]
  · by_cases e2 : s2 = Stmt.Fail
    · simpa [e1, e2]
    · simp [e1, e2, Stmt.hasRedex, Stmt.isRedex, h1, h2]

/-- The single rewrite step on an If node with reduced children yields a
    reduced statement. -/
theorem IdempotentElim.elimStep_if_noRedex {V : Type} [DecidableEq V] (s1 s2 s3 : Stmt V)
    (h1 : s1.hasRedex = false) (h2 : s2.hasRedex = false) (h3 : s3.hasRedex = false) :
    (IdempotentElim.elimStep (Stmt.If s1 s2 s3)).hasRedex = false := by
  unfold IdempotentElim.elimStep
  by_cases e1 : s1 = Stmt.Fail
  · simpa [e1]
  · by_cases e2 : s1 = Stmt.True
    · simpa [e1, e2]
    · simp [e1, e2, Stmt.hasRedex, Stmt.isRedex, h1, h2, h3]

/-- The post-order pass leaves no reducible sub-statement. -/
theorem IdempotentElim.transform_stmt_noRedex {V : Type} [DecidableEq V] (s : Stmt V) :
    (IdempotentElim.transform_stmt s).hasRedex = false := by
  induction s with
  | And s1 s2 ih1 ih2 =>
      exact IdempotentElim.elimStep_and_noRedex _ _ ih1 ih2
  | Or s1 s2 ih1 ih2 =>
      exact IdempotentElim.elimStep_or_noRedex _ _ ih1 ih2
  | If s1 s2 s3 ih1 ih2 ih3 =>
      exact IdempotentElim.elimStep_if_noRedex _ _ _ ih1 ih2 ih3
  | Unify e1 e2 => rfl
  | Call p args => rfl
  | Fail => rfl
  | True => rfl

/-- A statement with no reducible sub-statement is a fixed point of the
    post-order pass. -/
theorem IdempotentElim.transform_stmt_fixed {V : Type} [DecidableEq V] (s : Stmt V)
    (h : s.hasRedex = false) : IdempotentElim.transform_stmt s = s := by
  induction s with
  | And s1 s2 ih1 ih2 =>
      simp only [Stmt.hasRedex, Stmt.isRedex, Bool.or_eq_false_iff,
        decide_eq_false_iff_not] at h
      obtain ⟨⟨⟨e1, e2⟩, hr1⟩, hr2⟩ := h
      simp only [IdempotentElim.transform_stmt, ih1 hr1, ih2 hr2,
        IdempotentElim.elimStep, if_neg e1, if_neg e2]
  | Or s1 s2 ih1 ih2 =>
      simp only [Stmt.hasRedex, Stmt.isRedex, Bool.or_eq_false_iff,
        decide_eq_false_iff_not] at h
      obtain ⟨⟨⟨e1, e2⟩, hr1⟩, hr2⟩ := h
      simp only [IdempotentElim.transform_stmt, ih1 hr1, ih2 hr2,
        IdempotentElim.elimStep, if_neg e1, if_neg e2]
  | If s1 s2 s3 ih1 ih2 ih3 =>
      simp only [Stmt.hasRedex, Stmt.isRedex, Bool.or_eq_false_iff,
        decide_eq_false_iff_not] at h
      obtain ⟨⟨⟨⟨e1, e2⟩, hr1⟩, hr2⟩, hr3⟩ := h
      simp only [IdempotentElim.transform_stmt, ih1 hr1, ih2 hr2, ih3 hr3,
        IdempotentElim.elimStep, if_neg e1, if_neg e2]
  | Unify e1 e2 => rfl
  | Call p args => rfl
  | Fail => rfl
  | True => rfl

/-- C9: IdempotentElim leaves no And(True, s), And(s, True), Or(Fail, s),
    Or(s, Fail), IfThenElse(Fail, _, _) or IfThenElse(True, _, _)
    sub-statement in any predicate body of its output, and applying it a
    second time leaves the program unchanged. -/
theorem C9_idempotent_elim_fixed_point {V : Type} [DecidableEq V] (p : ProgramAst V) :
    (∀ pd ∈ IdempotentElim.transform p, pd.body.hasRedex = false) ∧
    IdempotentElim.transform (IdempotentElim.transform p) = IdempotentElim.transform p := by
  constructor
  · intro pd hpd
    simp only [IdempotentElim.transform, List.mem_map] at hpd
    obtain ⟨pd0, _, hpd0⟩ := hpd
    subst hpd0
    exact IdempotentElim.transform_stmt_noRedex pd0.body
  · unfold IdempotentElim.transform
    rw [List.map_map]
    apply List.map_congr_left
    intro pd _
    simp only [Function.comp_apply]
    congr 1
    exact IdempotentElim.transform_stmt_fixed _ (IdempotentElim.transform_stmt_noRedex pd.body)

/-- Witness for the fixed-point theorem on a concrete removable program. -/
theorem C9_idempotent_elim_fixed_point_witness :
    (⟨Prd.User "p", [], Stmt.True⟩ : PredDef Nat).body.hasRedex = false ∧
    IdempotentElim.transform (IdempotentElim.transform exC9Program) =
      IdempotentElim.transform exC9Program :=
  ⟨(C9_idempotent_elim_fixed_point exC9Program).1 ⟨Prd.User "p", [], Stmt.True⟩ (by decide),
   (C9_idempotent_elim_fixed_point exC9Program).2⟩

/-- Loading a checkpoint does not touch the fresh-variable counter: the
    Checkpoint structure carries no gen_idx field to restore. -/
theorem State.load_checkpoint_gen (s : State) (cp : Checkpoint) :
    (s.load_checkpoint cp).gen_idx = s.gen_idx := rfl

/-- Backtracking preserves the fresh-variable counter. -/
theorem State.load_next_checkpoint_gen (s s' : State)
    (h : s.load_next_checkpoint = some s') : s'.gen_idx = s.gen_idx := by
  unfold State.load_next_checkpoint at h
  split at h
  · exact Option.noConfusion h
  · simp only [Option.some.injEq] at h
    subst h
    rfl

/-- Returning from a call preserves the fresh-variable counter. -/
theorem State.ret_gen (s s' : State) (h : s.ret = some s') : s'.gen_idx = s.gen_idx := by
  unfold State.ret at h
  split at h
  · exact Option.noConfusion h
  · simp only [Option.some.injEq] at h
    subst h
    rfl

/-- The Unify instruction preserves the fresh-variable counter on both its
    success and its backtracking outcome. -/
theorem State.unify_gen (s s' : State) (h : State.unify s = StepRes.ok (some s')) :
    s'.gen_idx = s.gen_idx := by
  unfold State.unify at h
  split at h
  case h_1 x y rest =>
      split at h
      · simp only [StepRes.ok.injEq, Option.some.injEq] at h
        subst h
        rfl
      · simp only [StepRes.ok.injEq] at h
        exact State.load_next_checkpoint_gen _ s' h
  case h_2 => exact StepRes.noConfusion h

/-- No single instruction decreases the fresh-variable counter. -/
theorem execInsn_gen_le (i : Insn) (s s' : State) (h : execInsn i s = StepRes.ok (some s')) :
    s.gen_idx ≤ s'.gen_idx := by
  cases i with
  | PushValue v =>
      simp only [execInsn, StepRes.ok.injEq, Option.some.injEq] at h
      subst h
      exact le_refl _
  | Pop =>
      simp only [execInsn, StepRes.ok.injEq, Option.some.injEq] at h
      subst h
      exact le_refl _
  | Dup =>
      simp only [execInsn] at h
      split at h
      · exact StepRes.noConfusion h
      · simp only [StepRes.ok.injEq, Option.some.injEq] at h
        subst h
        exact le_refl _
  | Fresh =>
      simp only [execInsn, State.fresh_lv, StepRes.ok.injEq, Option.some.injEq] at h
      subst h
      simp only [State.gen_idx]
      omega
  | Load i =>
      simp only [execInsn] at h
      split at h
      · exact StepRes.noConfusion h
      · simp only [StepRes.ok.injEq, Option.some.injEq] at h
        subst h
        exact le_refl _
  | Store i =>
      simp only [execInsn] at h
      split at h
      · exact StepRes.noConfusion h
      · simp only [StepRes.ok.injEq, Option.some.injEq] at h
        subst h
        exact le_refl _
  | Construct f n =>
      simp only [execInsn] at h
      split at h
      · simp only [StepRes.ok.injEq, Option.some.injEq] at h
        subst h
        exact le_refl _
      · exact StepRes.noConfusion h
  | Unify =>
      simp only [execInsn] at h
      exact le_of_eq (State.unify_gen s s' h).symm
  | MkCheckpoint l o => exact StepRes.noConfusion h
  | Jump o =>
      simp only [execInsn, StepRes.ok.injEq, Option.some.injEq] at h
      subst h
      exact le_refl _
  | Call sig =>
      simp only [execInsn] at h
      split at h
      · simp only [StepRes.ok.injEq, Option.some.injEq] at h
        subst h
        exact le_refl _
      · split at h
        · split at h
          · simp only [StepRes.ok.injEq, Option.some.injEq] at h
            subst h
            exact le_refl _
          · exact StepRes.noConfusion h
        · exact StepRes.noConfusion h
  | Det l => exact StepRes.noConfusion h
  | DetUntil l => exact StepRes.noConfusion h
  | Fail =>
      simp only [execInsn, StepRes.ok.injEq] at h
      exact le_of_eq (State.load_next_checkpoint_gen s s' h).symm
  | Ret =>
      simp only [execInsn, StepRes.ok.injEq] at h
      exact le_of_eq (State.ret_gen s s' h).symm
  | Halt =>
      simp only [execInsn, StepRes.ok.injEq, Option.some.injEq] at h
      subst h
      exact le_refl _

/-- One VM step never decreases the fresh-variable counter. -/
theorem vmNext_gen_le (p : Program) (s s' : State) (h : vmNext p s = StepRes.ok (some s')) :
    s.gen_idx ≤ s'.gen_idx := by
  unfold vmNext at h
  dsimp only at h
  split at h
  · exact StepRes.noConfusion h
  · exact execInsn_gen_le _ { s with pc := s.pc + 1 } s' h

/-- A step that fetches Fresh allocates the next counter value and pushes
    exactly that logic variable. -/
theorem vmNext_fresh (p : Program) (s : State) (h : stepExecutesFresh p s) :
    vmNext p s = StepRes.ok (some { s with
      pc := s.pc + 1
      gen_idx := s.gen_idx + 1
      local_state := { s.local_state with
        op_stack := Value.LV (s.gen_idx + 1) :: s.local_state.op_stack } }) := by
  unfold stepExecutesFresh at h
  unfold vmNext
  dsimp only
  rw [h]
  rfl

/-- Unfolding one step of a run. -/
theorem runFrom_succ (p : Program) (s : State) (n : Nat) (s2 : State)
    (h : runFrom p s (n + 1) = some s2) :
    ∃ s1, runFrom p s n = some s1 ∧ vmNext p s1 = StepRes.ok (some s2) := by
  unfold runFrom at h
  cases hr : runFrom p s n with
  | none =>
      rw [hr] at h
      exact Option.noConfusion h
  | some s1 =>
      rw [hr] at h
      simp only [Option.some_bind] at h
      refine ⟨s1, rfl, ?_⟩
      cases hv : vmNext p s1 with
      | crash m =>
          rw [hv] at h
          exact Option.noConfusion h
      | ok r =>
          rw [hv] at h
          cases r with
          | none => exact Option.noConfusion h
          | some st =>
              simp only [Option.some.injEq] at h
              rw [h]

/-- Along a run the fresh-variable counter is monotone: the state reached
    after more steps has a counter at least as large. -/
theorem runFrom_gen_mono (p : Program) (s : State) (n k : Nat) (s2 : State)
    (h : runFrom p s (n + k) = some s2) :
    ∃ s1, runFrom p s n = some s1 ∧ s1.gen_idx ≤ s2.gen_idx := by
  induction k generalizing s2 with
  | zero => exact ⟨s2, h, le_refl _⟩
  | succ k ih =>
      obtain ⟨smid, hmid, hstep⟩ := runFrom_succ p s (n + k) s2 h
      obtain ⟨s1, h1, hle⟩ := ih smid hmid
      exact ⟨s1, h1, le_trans hle (vmNext_gen_le p smid s2 hstep)⟩

/-- C10: allocating a fresh logic variable increments gen_idx and yields
    exactly that variable; restoring a checkpoint does not restore gen_idx;
    along any run the counter is monotone; hence two Fresh instructions
    executed at different times of one run, backtracking included, allocate
    strictly increasing and therefore distinct identifiers. -/
theorem C10_fresh_ids_strictly_increase :
    (∀ (s : State) (cp : Checkpoint), (s.load_checkpoint cp).gen_idx = s.gen_idx) ∧
    (∀ s : State, s.fresh_lv = (Value.LV (s.gen_idx + 1), { s with gen_idx := s.gen_idx + 1 })) ∧
    (∀ (p : Program) (s0 : State) (n k : Nat) (s1 s2 : State),
      runFrom p s0 n = some s1 → runFrom p s0 (n + k) = some s2 →
      s1.gen_idx ≤ s2.gen_idx) ∧
    (∀ (p : Program) (s0 : State) (t1 t2 : Nat) (s1 s2 : State),
      t1 < t2 → runFrom p s0 t1 = some s1 → runFrom p s0 t2 = some s2 →
      stepExecutesFresh p s1 → stepExecutesFresh p s2 →
      s1.gen_idx + 1 < s2.gen_idx + 1) := by
  refine ⟨fun s cp => rfl, fun s => rfl, ?_, ?_⟩
  · intro p s0 n k s1 s2 h1 h2
    obtain ⟨s1', h1', hle⟩ := runFrom_gen_mono p s0 n k s2 h2
    rw [h1] at h1'
    cases h1'
    exact hle
  · intro p s0 t1 t2 s1 s2 hlt h1 h2 hf1 hf2
    obtain ⟨k, hk⟩ := Nat.exists_eq_add_of_lt hlt
    have hstep : runFrom p s0 (t1 + 1) =
        some { s1 with
          pc := s1.pc + 1
          gen_idx := s1.gen_idx + 1
          local_state := { s1.local_state with
            op_stack := Value.LV (s1.gen_idx + 1) :: s1.local_state.op_stack } } := by
      unfold runFrom
      rw [h1]
      simp only [Option.some_bind]
      rw [vmNext_fresh p s1 hf1]
    have h2' : runFrom p s0 ((t1 + 1) + k) = some s2 := by
      rw [show (t1 + 1) + k = t2 from by omega]
      exact h2
    obtain ⟨smid, hmid, hle⟩ := runFrom_gen_mono p s0 (t1 + 1) k s2 h2'
    rw [hstep] at hmid
    cases hmid
    simp only [State.gen_idx] at hle
    omega

/-- Witness for the freshness theorem: the first two Fresh steps of a
    three-Fresh main allocate the identifiers 1 and 2. -/
theorem C10_fresh_ids_strictly_increase_witness :
    State.new.gen_idx + 1 < exC10State1.gen_idx + 1 :=
  C10_fresh_ids_strictly_increase.2.2.2 exC10Program State.new 0 1 State.new exC10State1
    (by decide) rfl (by decide) rfl rfl
